import Mathlib

/-!
Verification of the `state` handler-pipeline package of the api-gateway
repository (`pkg/state/handler.go` and the options file).

The package is a sequential handler pipeline.  We embed it shallowly:

* Go `error` values are identified by a `Nat` tag; `Option Err` with
  `none` standing for Go `nil`.
* A `context.Context`'s cancellation status is a `Bool` (`true` = the
  Done channel is closed); `context.CancelFunc` is a transformer of that
  status, and the function produced by `context.WithCancel` closes the
  channel idempotently (`fun _ => true`).
* A `Handler` is an extension point (a Go interface).  Its observable
  interaction with the pipeline in one `Handle` call is: how many times
  it invokes `s.Stop()` and which error it returns.  We model a handler
  by exactly that pair.
* `Runner.Run` is embedded as a function producing the trace of events
  of one invocation - the binding of the cancel function into the shared
  `State` followed by one `exec i` event per handler whose `Handle` is
  actually invoked - together with `Run`'s return value.  The Go loop's
  `select { case <-ctx.Done(): break; default: ... }` is mirrored
  faithfully: when the context is cancelled the `break` leaves only the
  `select`, the `for` loop keeps iterating and every remaining handler
  is skipped (no `exec` event), exactly as in the source.
-/

/-- Identity of a Go `error` value; `Option Err` with `none` = Go `nil`. -/
abbrev Err := Nat

/-- Cancellation status of a `context.Context`:
`true` = the Done channel is closed. -/
abbrev CancelState := Bool

/-- `context.CancelFunc`, as a transformer of the cancellation status. -/
abbrev CancelFunc := CancelState → CancelState

/-- The cancel function returned by `context.WithCancel`: it closes the
Done channel; closing an already-closed channel changes nothing. -/
def withCancelFunc : CancelFunc := fun _ => true

/-- Opaque handle to the `client.Client` the `State` carries. -/
abbrev Client := Nat

/-- Opaque handle to the `logr.Logger` the `State` carries
(`0` is the zero value a fresh Go `State` holds). -/
abbrev Logger := Nat

/-- Go struct `State` (`pkg/state/handler.go`): the cancel function
`stop` (`none` = the nil zero value), the kubernetes client handle and
the logger handle. -/
structure State where
  stop : Option CancelFunc
  client : Client
  log : Logger

/-- `func (s *State) Log() logr.Logger { return s.log }` -/
def State.Log (s : State) : Logger := s.log

/-- `func (s *State) Client() client.Client { return s.client }` -/
def State.Client (s : State) : Client := s.client

/-- `func (s *State) Stop() { s.stop() }` - invokes the stored cancel
function on the current cancellation status with no nil check.  The
result is the new cancellation status, or `none` when `s.stop` is the
nil zero value: calling a nil Go function value panics, which the
embedding records as `none`. -/
def State.Stop (s : State) (c : CancelState) : Option CancelState :=
  match s.stop with
  | none => none
  | some f => some (f c)

/-- `n` successive calls of `s.Stop()` starting from cancellation status
`c`; `none` as soon as one of them panics. -/
def stopN (s : State) : Nat → CancelState → Option CancelState
  | 0, c => some c
  | n + 1, c => (stopN s n c).bind fun d => s.Stop d

/-- Observable interaction of one `Handler.Handle` call with the
pipeline: the number of times it calls `s.Stop()` and the error it
returns (`none` = `nil`).  Everything else a handler does (logging,
client calls, mutating the reconciled object) is external to the
pipeline's control flow. -/
structure HandlerBehavior where
  stops : Nat
  err : Option Err
  deriving Repr, DecidableEq

/-- A `Handler` of the pipeline, by its observable behavior. -/
abbrev Handler := HandlerBehavior

/-- Events of one `Runner.Run` invocation: `bindCancel` is the
assignment `r.state.stop = cancel` at the start of `Run`; `exec i`
records that handler `i` (0-indexed) had its `Handle` method invoked. -/
inductive Event where
  | bindCancel : Event
  | exec : Nat → Event
  deriving Repr, DecidableEq

/-- Go struct `Runner`: the ordered handler chain and the owned
`State`. -/
structure Runner where
  handlers : List Handler
  state : State

/-- The `for _, h := range r.handlers` loop of `Runner.Run`, over the
remaining handlers, the current cancellation status of the derived
context, and the index of the next handler.  Mirrors the Go source:
if the context is cancelled the `select` takes the Done case and its
`break` only leaves the `select`, so the handler is skipped and the
loop continues; otherwise the handler runs, a non-nil error returns
immediately, and a `Stop()` call cancels the context for the following
iterations. -/
def runLoop : List Handler → Bool → Nat → List Event × Option Err
  | [], _, _ => ([], none)
  | h :: rest, cancelled, i =>
    if cancelled then
      runLoop rest cancelled (i + 1)
    else
      match h.err with
      | some e => ([Event.exec i], some e)
      | none =>
        let p := runLoop rest (cancelled || (h.stops != 0)) (i + 1)
        (Event.exec i :: p.1, p.2)

/-- `func (r *Runner) Run(ctx context.Context) error`.
`ctxCancelled` is the status of the caller's context at entry;
`context.WithCancel` of an already-cancelled parent yields an
already-cancelled child.  The result is the event trace (binding the
cancel function first, then the loop) and `Run`'s return value. -/
def Runner.Run (r : Runner) (ctxCancelled : Bool) : List Event × Option Err :=
  let p := runLoop r.handlers ctxCancelled 0
  (Event.bindCancel :: p.1, p.2)

/-- The `State` value handlers observe during an active `Run`: the
runner's state with `stop` bound to the cancel function of the derived
context (`r.state.stop = cancel`). -/
def runBoundState (r : Runner) : State :=
  { r.state with stop := some withCancelFunc }

/-- Go `type Option func(*State)` (the functional option type of the
package; renamed to avoid the Lean core name). -/
def StateOption := State → State

/-- `func WithLogger(log logr.Logger) Option` - sets the `log` field. -/
def WithLogger (log : Logger) : StateOption :=
  fun s => { s with log := log }

/-- `func New(client client.Client, opts ...Option) *Runner`:
starts from the zero-value `State` with only `client` set (so `stop` is
the nil zero value and `log` the logger zero value), applies the options
in order, and wraps the result in a `Runner` with no handlers. -/
def New (client : Client) (opts : List StateOption) : Runner :=
  { handlers := []
    state := opts.foldl (fun s opt => opt s) { stop := none, client := client, log := 0 } }

/-- `func (r *Runner) AddHandlers(handler ...Handler)` - appends. -/
def Runner.AddHandlers (r : Runner) (handler : List Handler) : Runner :=
  { r with handlers := r.handlers ++ handler }

/-- A handler execution that neither returns an error nor calls
`Stop()`. -/
abbrev benign (h : Handler) : Prop := h.err = none ∧ h.stops = 0

/-- What `runLoop` can observe of one handler: its returned error and
whether it called `Stop()` at all. -/
def stopObs (h : Handler) : Option Err × Bool := (h.err, h.stops != 0)

/-- A concrete zero-value `State` for instantiating theorems. -/
def mkState : State := { stop := none, client := 0, log := 0 }

/-- A concrete `State` as it looks during an active `Run`: the cancel
function of the derived context is bound into `stop`. -/
def boundState : State := { stop := some withCancelFunc, client := 0, log := 0 }

/-! ## Helper lemmas -/

/-- Once the derived context is cancelled, the rest of the loop executes
no handler and the loop contributes a `nil` return. -/
theorem runLoop_cancelled (hs : List Handler) (i : Nat) :
    runLoop hs true i = ([], none) := by
  induction hs generalizing i with
  | nil => rfl
  | cons h rest ih => simp [runLoop, ih]

/-- Pushing the loop through a prefix of handlers that neither err nor
stop: each of them executes, and the loop continues on the rest with the
index advanced and the context still live. -/
theorem runLoop_benign_append (pre rest : List Handler) (i : Nat)
    (hb : ∀ h ∈ pre, benign h) :
    runLoop (pre ++ rest) false i =
      ((List.range pre.length).map (fun k => Event.exec (i + k)) ++
        (runLoop rest false (i + pre.length)).1,
       (runLoop rest false (i + pre.length)).2) := by
  induction pre generalizing i with
  | nil => simp
  | cons h pre ih =>
    obtain ⟨he, hs⟩ := hb h (by simp)
    have hrec := ih (i + 1) (fun g hg => hb g (by simp [hg]))
    have step : runLoop ((h :: pre) ++ rest) false i
        = (Event.exec i :: (runLoop (pre ++ rest) false (i + 1)).1,
           (runLoop (pre ++ rest) false (i + 1)).2) := by
      simp [runLoop, he, hs]
    rw [step, hrec]
    simp only [List.length_cons, List.range_succ_eq_map, List.map_cons, List.map_map]
    simp [Function.comp, Nat.add_assoc, Nat.add_comm, Nat.add_left_comm]

/-- The loop itself never emits a `bindCancel` event. -/
theorem bindCancel_not_in_runLoop (hs : List Handler) (c : Bool) (i : Nat) :
    Event.bindCancel ∉ (runLoop hs c i).1 := by
  induction hs generalizing c i with
  | nil => simp [runLoop]
  | cons h rest ih =>
    cases c with
    | true => rw [runLoop_cancelled]; simp
    | false =>
      cases herr : h.err with
      | some e => simp [runLoop, herr]
      | none => simpa [runLoop, herr] using ih (false || (h.stops != 0)) (i + 1)

/-- The loop's outcome depends on a handler only through its returned
error and whether it called `Stop()` at all. -/
theorem runLoop_congr (hs₁ hs₂ : List Handler)
    (hobs : hs₁.map stopObs = hs₂.map stopObs) (c : Bool) (i : Nat) :
    runLoop hs₁ c i = runLoop hs₂ c i := by
  induction hs₁ generalizing hs₂ c i with
  | nil =>
    cases hs₂ with
    | nil => rfl
    | cons _ _ => simp at hobs
  | cons h rest ih =>
    cases hs₂ with
    | nil => simp at hobs
    | cons h' rest' =>
      simp only [List.map_cons, List.cons.injEq] at hobs
      obtain ⟨hhd, htl⟩ := hobs
      have herr : h.err = h'.err := congrArg Prod.fst hhd
      have hstp : (h.stops != 0) = (h'.stops != 0) := congrArg Prod.snd hhd
      simp only [runLoop, herr, hstp, ih rest' htl]

/-- Full trace of a run in which every handler is benign. -/
theorem runLoop_all_benign (hs : List Handler) (hb : ∀ h ∈ hs, benign h) :
    runLoop hs false 0 = ((List.range hs.length).map Event.exec, none) := by
  have happ := runLoop_benign_append hs [] 0 hb
  simp only [List.append_nil] at happ
  rw [happ]
  simp [runLoop]

/-- Full trace of a run whose first non-benign handler calls `Stop()`
and returns `nil`: the benign prefix and the stopping handler execute,
nothing after it does, and the loop yields `nil`. -/
theorem runLoop_stop_char (pre post : List Handler) (h : Handler)
    (hb : ∀ g ∈ pre, benign g) (he : h.err = none) (hs : h.stops ≠ 0) :
    runLoop (pre ++ h :: post) false 0 =
      ((List.range (pre.length + 1)).map Event.exec, none) := by
  have happ := runLoop_benign_append pre (h :: post) 0 hb
  have hstep : runLoop (h :: post) false pre.length =
      (Event.exec pre.length :: (runLoop post true (pre.length + 1)).1,
       (runLoop post true (pre.length + 1)).2) := by
    have hbne : (h.stops != 0) = true := by simpa [bne_iff_ne] using hs
    simp [runLoop, he, hbne]
  rw [happ]
  simp only [Nat.zero_add] at *
  rw [hstep, runLoop_cancelled]
  simp [List.range_succ]

/-- Full trace of a run whose first non-benign handler returns error
`e`: the benign prefix and the erring handler execute, nothing after it
does, and the loop yields `e`. -/
theorem runLoop_err_char (pre post : List Handler) (h : Handler) (e : Err)
    (hb : ∀ g ∈ pre, benign g) (he : h.err = some e) :
    runLoop (pre ++ h :: post) false 0 =
      ((List.range (pre.length + 1)).map Event.exec, some e) := by
  have happ := runLoop_benign_append pre (h :: post) 0 hb
  have hstep : runLoop (h :: post) false pre.length =
      ([Event.exec pre.length], some e) := by
    simp [runLoop, he]
  rw [happ]
  simp only [Nat.zero_add] at *
  rw [hstep]
  simp [List.range_succ]

/-- `Event.exec` is injective. -/
theorem exec_injective : Function.Injective Event.exec := by
  intro a b h
  injection h

/-- Applying `New`'s option fold to logger options only never touches
the `stop` field. -/
theorem foldl_withLogger_stop (ls : List Logger) (s : State) :
    (List.foldl (fun t opt => opt t) s (ls.map WithLogger)).stop = s.stop := by
  induction ls generalizing s with
  | nil => rfl
  | cons l ls ih => simpa [WithLogger] using ih { s with log := l }

/-- Claim C1: if handler `i` (here `i = pre.length`, all handlers before
it benign) calls `Stop()` and returns `nil`, then that handler completes
normally (its `exec` event is in the trace), `Run` returns `nil`, and no
later handler ever executes: the trace is exactly the binding event
followed by the executions of handlers `0..i`. -/
theorem run_stop_skips_rest (pre post : List Handler) (h : Handler) (s : State)
    (hb : ∀ g ∈ pre, benign g) (he : h.err = none) (hs : h.stops ≠ 0) :
    Runner.Run ⟨pre ++ h :: post, s⟩ false =
      (Event.bindCancel :: (List.range (pre.length + 1)).map Event.exec, none)
    ∧ Event.exec pre.length ∈ (Runner.Run ⟨pre ++ h :: post, s⟩ false).1
    ∧ ∀ k, pre.length < k →
        Event.exec k ∉ (Runner.Run ⟨pre ++ h :: post, s⟩ false).1 := by
  have hchar := runLoop_stop_char pre post h hb he hs
  have hrun : Runner.Run ⟨pre ++ h :: post, s⟩ false =
      (Event.bindCancel :: (List.range (pre.length + 1)).map Event.exec, none) := by
    simp [Runner.Run, hchar]
  refine ⟨hrun, ?_, ?_⟩
  · rw [hrun]
    simp only [List.mem_cons, List.mem_map, List.mem_range]
    right
    exact ⟨pre.length, by omega, rfl⟩
  · intro k hk
    rw [hrun]
    simp only [List.mem_cons, List.mem_map, List.mem_range]
    rintro (hcon | ⟨a, ha, hae⟩)
    · exact Event.noConfusion hcon
    · have : a = k := exec_injective hae
      omega

/-- Claim C2: if handler `i` (here `i = pre.length`, all handlers before
it benign) returns the non-nil error `e`, then `Run` returns exactly
`e`, the trace is the binding event followed by the executions of
handlers `0..i`, and no later handler ever executes. -/
theorem run_err_aborts (pre post : List Handler) (h : Handler) (e : Err) (s : State)
    (hb : ∀ g ∈ pre, benign g) (he : h.err = some e) :
    Runner.Run ⟨pre ++ h :: post, s⟩ false =
      (Event.bindCancel :: (List.range (pre.length + 1)).map Event.exec, some e)
    ∧ ∀ k, pre.length < k →
        Event.exec k ∉ (Runner.Run ⟨pre ++ h :: post, s⟩ false).1 := by
  have hchar := runLoop_err_char pre post h e hb he
  have hrun : Runner.Run ⟨pre ++ h :: post, s⟩ false =
      (Event.bindCancel :: (List.range (pre.length + 1)).map Event.exec, some e) := by
    simp [Runner.Run, hchar]
  refine ⟨hrun, ?_⟩
  intro k hk
  rw [hrun]
  simp only [List.mem_cons, List.mem_map, List.mem_range]
  rintro (hcon | ⟨a, ha, hae⟩)
  · exact Event.noConfusion hcon
  · have : a = k := exec_injective hae
    omega

/-- Claim C3: with no error and no `Stop()` call anywhere, `Run` returns
`nil` and the trace is the binding event followed by one execution of
each handler, in insertion order; each handler executes exactly once. -/
theorem run_all_execute (hs : List Handler) (s : State) (hb : ∀ h ∈ hs, benign h) :
    Runner.Run ⟨hs, s⟩ false =
      (Event.bindCancel :: (List.range hs.length).map Event.exec, none)
    ∧ ∀ k, k < hs.length →
        (Runner.Run ⟨hs, s⟩ false).1.count (Event.exec k) = 1 := by
  have hchar := runLoop_all_benign hs hb
  have hrun : Runner.Run ⟨hs, s⟩ false =
      (Event.bindCancel :: (List.range hs.length).map Event.exec, none) := by
    simp [Runner.Run, hchar]
  refine ⟨hrun, ?_⟩
  intro k hk
  rw [hrun]
  have hne : (Event.exec k) ≠ Event.bindCancel := by simp
  rw [List.count_cons_of_ne hne]
  have hnd : ((List.range hs.length).map Event.exec).Nodup :=
    (List.nodup_range hs.length).map exec_injective
  refine List.count_eq_one_of_mem hnd ?_
  simp only [List.mem_map, List.mem_range]
  exact ⟨k, hk, rfl⟩

/-- Claim C4: with the cancellation control bound (as during an active
`Run`), any positive number of `Stop()` calls panics nowhere and leaves
the context cancelled - the same result as a single call; and the
pipeline's outcome depends on a handler only through its error and
whether it called `Stop()` at all, so calls after the first have no
observable effect on the outcome. -/
theorem stop_idempotent (s : State) (hbound : s.stop = some withCancelFunc) :
    (∀ n c, 1 ≤ n → stopN s n c = some true)
    ∧ (∀ hs₁ hs₂ : List Handler, hs₁.map stopObs = hs₂.map stopObs →
        ∀ st b, Runner.Run ⟨hs₁, st⟩ b = Runner.Run ⟨hs₂, st⟩ b) := by
  constructor
  · intro n c h1
    induction n with
    | zero => exact absurd h1 (by omega)
    | succ m ih =>
      rcases Nat.eq_zero_or_pos m with h0 | hpos
      · subst h0
        simp [stopN, State.Stop, hbound, withCancelFunc]
      · rw [stopN, ih hpos]
        simp [State.Stop, hbound, withCancelFunc]
  · intro hs₁ hs₂ hobs st b
    unfold Runner.Run
    rw [runLoop_congr hs₁ hs₂ hobs b 0]

/-- Claim C5: folding any sequence of `AddHandlers` calls over a runner
appends the argument lists in call order: the final chain is the
original chain followed by the concatenation of all argument lists. -/
theorem addHandlers_cumulative (r : Runner) (calls : List (List Handler)) :
    (calls.foldl (fun acc hs => acc.AddHandlers hs) r).handlers =
      r.handlers ++ calls.flatten := by
  induction calls generalizing r with
  | nil => simp
  | cons c cs ih =>
    simp only [List.foldl_cons, List.flatten_cons]
    rw [ih]
    simp [Runner.AddHandlers, List.append_assoc]

/-- Claim C6: in every `Run` trace the binding of the cancel function
into the shared `State` is the first event - so it precedes every
handler execution - and it occurs exactly once. -/
theorem bindCancel_first_and_once (r : Runner) (b : Bool) :
    (Runner.Run r b).1.head? = some Event.bindCancel
    ∧ (Runner.Run r b).1.count Event.bindCancel = 1 := by
  constructor
  · rfl
  · show (Event.bindCancel :: (runLoop r.handlers b 0).1).count Event.bindCancel = 1
    rw [List.count_cons_self,
      List.count_eq_zero_of_not_mem (bindCancel_not_in_runLoop r.handlers b 0)]

/-- Claim C7: `New` applies its options to the freshly built `State` in
argument order - options after a split point act on the state built from
the options before it - and with several `WithLogger` options the last
one's logger is the one stored. -/
theorem new_applies_options_in_order (client : Client)
    (opts₁ opts₂ opts : List StateOption) (l : Logger) :
    (New client (opts₁ ++ opts₂)).state =
      opts₂.foldl (fun s opt => opt s) (New client opts₁).state
    ∧ (New client (opts ++ [WithLogger l])).state.log = l := by
  constructor
  · simp [New, List.foldl_append]
  · simp [New, List.foldl_append, WithLogger]

/-- Claim C8: a runner built by `New` from logger options still has the
nil zero value in the `stop` field, and calling `Stop()` on its state
before any `Run` has bound a cancel function invokes that nil function
value - the `none` outcome modelling the Go panic. -/
theorem stop_before_any_run (c : Client) (ls : List Logger) (cs : CancelState) :
    (New c (ls.map WithLogger)).state.stop = none
    ∧ State.Stop (New c (ls.map WithLogger)).state cs = none := by
  have hstop : (New c (ls.map WithLogger)).state.stop = none := by
    simpa [New] using foldl_withLogger_stop ls { stop := none, client := c, log := 0 }
  exact ⟨hstop, by simp [State.Stop, hstop]⟩

/-- Claim C9: when the caller's context is already cancelled at entry,
the derived context starts cancelled, every loop iteration skips its
handler, and `Run` returns `nil` with no handler executed - the trace is
just the binding event. -/
theorem run_on_cancelled_context (r : Runner) :
    Runner.Run r true = ([Event.bindCancel], none) := by
  simp [Runner.Run, runLoop_cancelled]

/-- Claim C10: if handler `i` (here `i = pre.length`, all handlers
before it benign) both calls `Stop()` and returns the non-nil error `e`,
the error wins: `Run` returns `e`, and the handlers after `i` are
skipped exactly as in the pure-error case. -/
theorem run_stop_and_err_returns_err (pre post : List Handler) (h : Handler)
    (e : Err) (s : State) (hb : ∀ g ∈ pre, benign g)
    (he : h.err = some e) (_hs : h.stops ≠ 0) :
    Runner.Run ⟨pre ++ h :: post, s⟩ false =
      (Event.bindCancel :: (List.range (pre.length + 1)).map Event.exec, some e)
    ∧ ∀ k, pre.length < k →
        Event.exec k ∉ (Runner.Run ⟨pre ++ h :: post, s⟩ false).1 := by
  have hchar := runLoop_err_char pre post h e hb he
  have hrun : Runner.Run ⟨pre ++ h :: post, s⟩ false =
      (Event.bindCancel :: (List.range (pre.length + 1)).map Event.exec, some e) := by
    simp [Runner.Run, hchar]
  refine ⟨hrun, ?_⟩
  intro k hk
  rw [hrun]
  simp only [List.mem_cons, List.mem_map, List.mem_range]
  rintro (hcon | ⟨a, ha, hae⟩)
  · exact Event.noConfusion hcon
  · have : a = k := exec_injective hae
    omega

/-- Witness for claim C1: handlers `[benign, stop, benign]` - handlers 0
and 1 execute, `Run` returns `nil`, handler 2 is skipped. -/
theorem run_stop_skips_rest_witness :
    Runner.Run ⟨[⟨0, none⟩, ⟨1, none⟩, ⟨0, none⟩], mkState⟩ false =
      (Event.bindCancel :: (List.range 2).map Event.exec, none)
    ∧ Event.exec 1 ∈ (Runner.Run ⟨[⟨0, none⟩, ⟨1, none⟩, ⟨0, none⟩], mkState⟩ false).1
    ∧ ∀ k, 1 < k →
        Event.exec k ∉ (Runner.Run ⟨[⟨0, none⟩, ⟨1, none⟩, ⟨0, none⟩], mkState⟩ false).1 :=
  run_stop_skips_rest [⟨0, none⟩] [⟨0, none⟩] ⟨1, none⟩ mkState (by decide) rfl (by decide)

/-- Witness for claim C2: handlers `[benign, error 5, benign]` - `Run`
returns error `5`, handler 2 is skipped. -/
theorem run_err_aborts_witness :
    Runner.Run ⟨[⟨0, none⟩, ⟨0, some 5⟩, ⟨0, none⟩], mkState⟩ false =
      (Event.bindCancel :: (List.range 2).map Event.exec, some 5)
    ∧ ∀ k, 1 < k →
        Event.exec k ∉ (Runner.Run ⟨[⟨0, none⟩, ⟨0, some 5⟩, ⟨0, none⟩], mkState⟩ false).1 :=
  run_err_aborts [⟨0, none⟩] [⟨0, none⟩] ⟨0, some 5⟩ 5 mkState (by decide) rfl

/-- Witness for claim C3: two benign handlers - `Run` returns `nil`,
each executes exactly once, in order. -/
theorem run_all_execute_witness :
    Runner.Run ⟨[⟨0, none⟩, ⟨0, none⟩], mkState⟩ false =
      (Event.bindCancel :: (List.range 2).map Event.exec, none)
    ∧ ∀ k, k < 2 →
        (Runner.Run ⟨[⟨0, none⟩, ⟨0, none⟩], mkState⟩ false).1.count (Event.exec k) = 1 :=
  run_all_execute [⟨0, none⟩, ⟨0, none⟩] mkState (by decide)

/-- Witness for claim C4: three `Stop()` calls on a bound state give the
same cancelled outcome as one, and a handler stopping twice produces the
very same run as one stopping once. -/
theorem stop_idempotent_witness :
    stopN boundState 3 false = some true
    ∧ Runner.Run ⟨[⟨2, none⟩], mkState⟩ false = Runner.Run ⟨[⟨1, none⟩], mkState⟩ false :=
  ⟨(stop_idempotent boundState rfl).1 3 false (by decide),
   (stop_idempotent boundState rfl).2 [⟨2, none⟩] [⟨1, none⟩] (by decide) mkState false⟩

/-- Witness for claim C10: handlers `[benign, stop+error 7, benign]` -
`Run` returns error `7`, handler 2 is skipped. -/
theorem run_stop_and_err_returns_err_witness :
    Runner.Run ⟨[⟨0, none⟩, ⟨3, some 7⟩, ⟨0, none⟩], mkState⟩ false =
      (Event.bindCancel :: (List.range 2).map Event.exec, some 7)
    ∧ ∀ k, 1 < k →
        Event.exec k ∉ (Runner.Run ⟨[⟨0, none⟩, ⟨3, some 7⟩, ⟨0, none⟩], mkState⟩ false).1 :=
  run_stop_and_err_returns_err [⟨0, none⟩] [⟨0, none⟩] ⟨3, some 7⟩ 7 mkState
    (by decide) rfl (by decide)
